import Mathlib

/-!
# Verification of the PTExerciseApp backend

A shallow embedding of the exercise-name normalizer, the image-lookup matcher
of `GET /api/exercise-image/:exerciseName`, and the SQLite-backed store
operations (`toggleFavorite`, `updateExercise`, `getExerciseById`) of
`backend/server.js` and `backend/db/database.js`, together with proofs of the
specification's claims about them.

JavaScript strings are modelled as lists of character codes; letter
case-folding is modelled on the ASCII range, and the whitespace class is the
`\s` class of JavaScript regular expressions.  The SQLite `Exercises` table is
modelled as a list of rows; an UPDATE statement maps over the rows matching
its WHERE clause and reports the number of matched rows as `changes`.
-/

namespace PTExercise

/-- JavaScript strings, modelled as lists of character codes. -/
abbrev JStr := List Nat

/-- The character codes of a Lean string literal (used for concrete inputs). -/
def strCodes (s : String) : JStr := s.data.map Char.toNat

/-- Lower-casing of one character code, `String.prototype.toLowerCase` (ASCII letters:
codes 65..90 shift to 97..122, everything else is unchanged). -/
def lowerCode (c : Nat) : Nat := if 65 ≤ c ∧ c ≤ 90 then c + 32 else c

/-- The whitespace class `\s` of JavaScript regular expressions. -/
def isWs (c : Nat) : Bool :=
  c == 9 || c == 10 || c == 11 || c == 12 || c == 13 || c == 32 || c == 160 ||
    c == 5760 || decide (8192 ≤ c ∧ c ≤ 8202) || c == 8232 || c == 8233 ||
    c == 8239 || c == 8287 || c == 12288 || c == 65279

/-- Separator replacement `.replace(/[-_]/g, ' ')` on one character code (45 is the hyphen,
95 the underscore, 32 the space). -/
def sepToSpace (c : Nat) : Nat := if c = 45 ∨ c = 95 then 32 else c

/-- Whitespace collapsing `.replace(/\s+/g, ' ')`: every maximal run of whitespace becomes a single
space, scanning left to right (a whitespace character directly followed by
another whitespace character is absorbed into the run; the last character of
the run is emitted as one space). -/
def collapseWs : JStr → JStr
  | [] => []
  | [c] => if isWs c then [32] else [c]
  | c :: d :: rest =>
    if isWs c && isWs d then collapseWs (d :: rest)
    else (if isWs c then 32 else c) :: collapseWs (d :: rest)

/-- Trimming `.trim()`: remove leading and trailing whitespace. -/
def trimWs (s : JStr) : JStr :=
  ((s.dropWhile isWs).reverse.dropWhile isWs).reverse

/-- The name normalizer of the image endpoint (`normalizedSearchName` in
server.js): `name.toLowerCase().replace(/[-_]/g, ' ').replace(/\s+/g, ' ')
.trim()`. -/
def normalizeName (s : JStr) : JStr :=
  trimWs (collapseWs ((s.map lowerCode).map sepToSpace))

/-- Does the first string start with the second? (helper for
`includesCodes`). -/
def startsWithCodes : JStr → JStr → Bool
  | _, [] => true
  | [], _ :: _ => false
  | a :: as, b :: bs => a == b && startsWithCodes as bs

/-- Containment test `String.prototype.includes`: `includesCodes hay pat` is true exactly when
`pat` occurs contiguously inside `hay`. -/
def includesCodes : JStr → JStr → Bool
  | [], pat => pat.isEmpty
  | c :: rest, pat => startsWithCodes (c :: rest) pat || includesCodes rest pat

/-- One entry of the free-exercise-db dataset: a canonical name and an ordered
sequence of relative image path fragments. -/
structure ImageCatalogEntry where
  name : JStr
  images : List JStr
deriving DecidableEq

/-- The predicate of the `exerciseDatabase.find` callback: symmetric
containment between the normalized entry name and the normalized query. -/
def isCandidate (q : JStr) (e : ImageCatalogEntry) : Bool :=
  includesCodes (normalizeName e.name) (normalizeName q) ||
    includesCodes (normalizeName q) (normalizeName e.name)

/-- The search `exerciseDatabase.find(...)`: the first entry in catalog order whose
normalized name and the normalized query satisfy symmetric containment. -/
def findMatch (q : JStr) (catalog : List ImageCatalogEntry) :
    Option ImageCatalogEntry :=
  catalog.find? (isCandidate q)

/-- The literal written before the interpolated fragment in the template
of the image endpoint (it ends with a single slash). -/
def imageUrlBase : JStr :=
  strCodes "https://raw.githubusercontent.com/yuhonas/free-exercise-db/main/exercises/"

/-- URL expansion of one relative image path fragment. -/
def expandImage (img : JStr) : JStr := imageUrlBase ++ img

/-- Body of the JSON response of `GET /api/exercise-image/:exerciseName`. -/
structure ImageLookupResult where
  found : Bool
  images : Option (List JStr)
deriving DecidableEq

/-- The image endpoint after the (lazy) load attempt: `db` is `none` when the
dataset is still unloaded because loading failed, `some catalog` otherwise.
The endpoint always answers 200 with such a body, also from its catch. -/
def lookupImages (q : JStr) (db : Option (List ImageCatalogEntry)) :
    ImageLookupResult :=
  match db with
  | none => { found := false, images := none }
  | some catalog =>
    match findMatch q catalog with
    | some e =>
      if 0 < e.images.length then
        { found := true, images := some (e.images.map expandImage) }
      else { found := false, images := none }
    | none => { found := false, images := none }

/-- The image endpoint together with the HTTP status it answers: every branch
of the handler calls `res.json` without setting a status, also the catch, so
every answer is a 200. -/
def imageEndpoint (q : JStr) (db : Option (List ImageCatalogEntry)) :
    Nat × ImageLookupResult :=
  match db with
  | none => (200, { found := false, images := none })
  | some catalog =>
    match findMatch q catalog with
    | some e =>
      if 0 < e.images.length then
        (200, { found := true, images := some (e.images.map expandImage) })
      else (200, { found := false, images := none })
    | none => (200, { found := false, images := none })

/-- One row of the `Exercises` table (schema.sql): `is_favorited` is an
INTEGER column, timestamps are modelled as abstract instants. -/
structure ExerciseRow where
  id : Nat
  exercise_name : String
  exercise_type : String
  muscle : String
  equipment : String
  difficulty : String
  instructions : String
  is_favorited : Int
  last_updated : Option Nat
  created_timestamp : Nat
deriving DecidableEq

/-- Effect of the UPDATE of `Database.toggleFavorite` on one matched row:
`is_favorited = CASE WHEN is_favorited = 1 THEN 0 ELSE 1 END`,
`last_updated = CURRENT_TIMESTAMP`. -/
def toggleRow (now : Nat) (r : ExerciseRow) : ExerciseRow :=
  { r with
    is_favorited := if r.is_favorited = 1 then 0 else 1
    last_updated := some now }

/-- The method `Database.toggleFavorite`: the UPDATE rewrites every row whose id matches
and leaves the rest; the second component is sqlite's `changes` count. -/
def toggleFavorite (now : Nat) (id : Nat) (db : List ExerciseRow) :
    List ExerciseRow × Nat :=
  (db.map fun r => if r.id = id then toggleRow now r else r,
   (db.filter fun r => r.id == id).length)

/-- The method `Database.getExerciseById`: `db.get` returns the first row matching the
WHERE clause. -/
def getExerciseById (id : Nat) (db : List ExerciseRow) : Option ExerciseRow :=
  db.find? fun r => r.id == id

/-- The transformed record the endpoints return; `is_favorited` is the
JavaScript comparison `exercise.is_favorited === 1`. -/
structure TransformedExercise where
  id : Nat
  name : String
  type : String
  muscle : String
  equipment : String
  difficulty : String
  instructions : String
  is_favorited : Bool
deriving DecidableEq

/-- The transformation applied before responding. -/
def transformRow (r : ExerciseRow) : TransformedExercise :=
  { id := r.id
    name := r.exercise_name
    type := r.exercise_type
    muscle := r.muscle
    equipment := r.equipment
    difficulty := r.difficulty
    instructions := r.instructions
    is_favorited := r.is_favorited == 1 }

/-- JSON responses of `PATCH /api/exercises/:id/favorite`. -/
inductive ApiResponse where
  | ok (body : TransformedExercise)
  | notFound (error : String)
deriving DecidableEq

/-- The HTTP status each response is sent with. -/
def statusOf : ApiResponse → Nat
  | .ok _ => 200
  | .notFound _ => 404

/-- Handler of `PATCH /api/exercises/:id/favorite`: toggle, then 404 when
sqlite reports no matched row, otherwise re-read the row and answer with the
transformed record.  The pair is the response and the store afterwards. -/
def patchFavorite (now : Nat) (id : Nat) (db : List ExerciseRow) :
    ApiResponse × List ExerciseRow :=
  let result := toggleFavorite now id db
  if result.2 = 0 then (.notFound "Exercise not found", result.1)
  else
    match getExerciseById id result.1 with
    | none => (.notFound "Exercise not found after toggle", result.1)
    | some exercise => (.ok (transformRow exercise), result.1)

/-- The body of `PUT /api/exercises/:id` after `updateExercise`'s
allowed-fields filter: a field is `some` exactly when the request carried it. -/
structure UpdatePayload where
  exercise_name : Option String
  exercise_type : Option String
  muscle : Option String
  equipment : Option String
  difficulty : Option String
  instructions : Option String
  is_favorited : Option Bool
deriving DecidableEq

/-- Is any allowed field present? (`fields.length === 0` check). -/
def hasUpdateField (u : UpdatePayload) : Bool :=
  u.exercise_name.isSome || u.exercise_type.isSome || u.muscle.isSome ||
    u.equipment.isSome || u.difficulty.isSome || u.instructions.isSome ||
    u.is_favorited.isSome

/-- Effect of the UPDATE of `Database.updateExercise` on one matched row
(booleans stored as 0/1, `last_updated = CURRENT_TIMESTAMP`). -/
def applyUpdate (now : Nat) (u : UpdatePayload) (r : ExerciseRow) :
    ExerciseRow :=
  { r with
    exercise_name := u.exercise_name.getD r.exercise_name
    exercise_type := u.exercise_type.getD r.exercise_type
    muscle := u.muscle.getD r.muscle
    equipment := u.equipment.getD r.equipment
    difficulty := u.difficulty.getD r.difficulty
    instructions := u.instructions.getD r.instructions
    is_favorited :=
      match u.is_favorited with
      | some b => if b then 1 else 0
      | none => r.is_favorited
    last_updated := some now }

/-- The method `Database.updateExercise`: it throws when no allowed field is present and
otherwise updates every row matching the id, with no duplicate-name check of
any kind; `changes` is the number of matched rows. -/
def updateExercise (now : Nat) (id : Nat) (u : UpdatePayload)
    (db : List ExerciseRow) : Except String (List ExerciseRow × Nat) :=
  if hasUpdateField u then
    .ok (db.map fun r => if r.id = id then applyUpdate now u r else r,
      (db.filter fun r => r.id == id).length)
  else .error "No valid fields to update"

/-- JSON responses of `PUT /api/exercises/:id`; the thrown no-valid-fields
error and the re-read of a vanished row surface as the generic 500 branch. -/
inductive PutResponse where
  | ok (body : TransformedExercise)
  | notFound (error : String)
  | serverError (error : String)
deriving DecidableEq

/-- Handler of `PUT /api/exercises/:id`. -/
def putExercise (now : Nat) (id : Nat) (u : UpdatePayload)
    (db : List ExerciseRow) : PutResponse × List ExerciseRow :=
  match updateExercise now id u db with
  | .error msg => (.serverError msg, db)
  | .ok (db2, changes) =>
    if changes = 0 then (.notFound "Exercise not found", db2)
    else
      match getExerciseById id db2 with
      | none => (.serverError "Exercise not found after update", db2)
      | some exercise => (.ok (transformRow exercise), db2)

/-! ## The containment test agrees with list containment -/

theorem startsWithCodes_iff (hay pat : JStr) :
    startsWithCodes hay pat = true ↔ pat <+: hay := by
  induction hay generalizing pat with
  | nil =>
    cases pat with
    | nil => simp [startsWithCodes]
    | cons b bs => simp [startsWithCodes]
  | cons a as ih =>
    cases pat with
    | nil => simp [startsWithCodes, List.nil_prefix]
    | cons b bs =>
      simp only [startsWithCodes, Bool.and_eq_true, beq_iff_eq,
        List.cons_prefix_cons, ih]
      constructor
      · rintro ⟨h1, h2⟩
        exact ⟨h1.symm, h2⟩
      · rintro ⟨h1, h2⟩
        exact ⟨h1.symm, h2⟩

theorem includesCodes_iff (hay pat : JStr) :
    includesCodes hay pat = true ↔ pat <:+: hay := by
  induction hay with
  | nil =>
    cases pat with
    | nil => simp [includesCodes]
    | cons b bs => simp [includesCodes]
  | cons c rest ih =>
    rw [includesCodes, List.infix_cons_iff]
    simp [startsWithCodes_iff, ih]

/-- C1: the matcher scans the catalog in order, an entry is a candidate
exactly when the normalized query is a substring of the normalized entry name
or the normalized entry name is a substring of the normalized query, and the
entry returned is the first candidate in catalog order. -/
theorem matcher_first_candidate_wins (q : JStr)
    (catalog : List ImageCatalogEntry) (e : ImageCatalogEntry) :
    (isCandidate q e = true ↔
      normalizeName q <:+: normalizeName e.name ∨
        normalizeName e.name <:+: normalizeName q) ∧
    (findMatch q catalog = some e ↔
      isCandidate q e = true ∧
        ∃ pre post, catalog = pre ++ e :: post ∧
          ∀ e2 ∈ pre, isCandidate q e2 = false) := by
  constructor
  · unfold isCandidate
    rw [Bool.or_eq_true, includesCodes_iff, includesCodes_iff]
  · rw [findMatch, List.find?_eq_some]
    simp

/-- C3: the lookup answers `{found: false, images: null}` exactly when the
catalog is unloaded, no entry matches, or the first matching entry has no
images; otherwise it answers `{found: true, images: urls}`; the endpoint is a
total function and every branch answers with status 200. -/
theorem lookupImages_failure_modes (q : JStr)
    (db : Option (List ImageCatalogEntry)) :
    (lookupImages q db = { found := false, images := none } ↔
      db = none ∨ ∃ catalog, db = some catalog ∧
        (findMatch q catalog = none ∨
          ∃ e, findMatch q catalog = some e ∧ e.images = [])) ∧
    (lookupImages q db ≠ { found := false, images := none } →
      ∃ catalog e, db = some catalog ∧ findMatch q catalog = some e ∧
        e.images ≠ [] ∧ lookupImages q db =
          { found := true, images := some (e.images.map expandImage) }) ∧
    imageEndpoint q db = (200, lookupImages q db) := by
  match db with
  | none => simp [lookupImages, imageEndpoint]
  | some catalog =>
    match hm : findMatch q catalog with
    | none => simp [lookupImages, imageEndpoint, hm]
    | some e =>
      by_cases himg : e.images = []
      · simp [lookupImages, imageEndpoint, hm, himg]
      · have hlen : 0 < e.images.length := List.length_pos.mpr himg
        refine ⟨?_, ?_, ?_⟩
        · simp only [lookupImages, hm, if_pos hlen]
          constructor
          · intro h
            cases h
          · rintro (h | ⟨catalog2, hc, h | ⟨e2, he2, himg2⟩⟩)
            · cases h
            · rw [Option.some_inj] at hc
              subst hc
              rw [hm] at h
              cases h
            · rw [Option.some_inj] at hc
              subst hc
              rw [hm, Option.some_inj] at he2
              subst he2
              exact absurd himg2 himg
        · intro _
          exact ⟨catalog, e, rfl, hm, himg, by
            simp [lookupImages, hm, if_pos hlen]⟩
        · simp [lookupImages, imageEndpoint, hm, if_pos hlen]

/-! ## URL expansion -/

/-- The remote base URL of the image dataset without its trailing separator
(the `<base>` of the spec's `<base>/<fragment>` template). -/
def specImageBase : JStr :=
  strCodes "https://raw.githubusercontent.com/yuhonas/free-exercise-db/main/exercises"

/-- C7: each returned image URL is exactly the fixed base URL, a single
separator slash, then the relative fragment — the base does not end in a
slash, so the junction has no double slash — `Curl/0.jpg` expands to the full
URL, and the returned sequence preserves the order of the entry's images. -/
theorem expanded_url_shape (q : JStr) (catalog : List ImageCatalogEntry)
    (e : ImageCatalogEntry) (hfind : findMatch q catalog = some e)
    (himg : e.images ≠ []) :
    lookupImages q (some catalog) =
      { found := true, images := some (e.images.map expandImage) } ∧
    (∀ img, expandImage img = specImageBase ++ 47 :: img) ∧
    specImageBase.getLast? ≠ some 47 ∧
    expandImage (strCodes "Curl/0.jpg") =
      strCodes
        "https://raw.githubusercontent.com/yuhonas/free-exercise-db/main/exercises/Curl/0.jpg" ∧
    ∀ i : Nat, (e.images.map expandImage)[i]? = e.images[i]?.map expandImage := by
  refine ⟨?_, ?_, by decide, by decide, fun i => by simp⟩
  · simp [lookupImages, hfind, if_pos (List.length_pos.mpr himg)]
  · intro img
    show imageUrlBase ++ img = specImageBase ++ 47 :: img
    rw [show imageUrlBase = specImageBase ++ [47] from by decide,
      List.append_assoc]
    rfl

/-- One catalog entry used by the concrete witnesses. -/
def curlEntry : ImageCatalogEntry :=
  { name := strCodes "Curl"
    images := [strCodes "Curl/0.jpg", strCodes "Curl/1.jpg"] }

theorem expanded_url_shape_witness :
    lookupImages (strCodes "curl") (some [curlEntry]) =
      { found := true, images := some (curlEntry.images.map expandImage) } ∧
    (∀ img, expandImage img = specImageBase ++ 47 :: img) ∧
    specImageBase.getLast? ≠ some 47 ∧
    expandImage (strCodes "Curl/0.jpg") =
      strCodes
        "https://raw.githubusercontent.com/yuhonas/free-exercise-db/main/exercises/Curl/0.jpg" ∧
    ∀ i : Nat, (curlEntry.images.map expandImage)[i]? =
      curlEntry.images[i]?.map expandImage :=
  expanded_url_shape (strCodes "curl") [curlEntry] curlEntry (by decide)
    (by decide)

/-! ## The update path -/

/-- A stored row named Bench Press, used by the concrete update scenario. -/
def benchRow : ExerciseRow :=
  { id := 1
    exercise_name := "Bench Press"
    exercise_type := "strength"
    muscle := "chest"
    equipment := "barbell"
    difficulty := "intermediate"
    instructions := "Lower the bar to the chest, then press up."
    is_favorited := 0
    last_updated := none
    created_timestamp := 10 }

/-- A stored row named Squat, used by the concrete update scenario. -/
def squatRow : ExerciseRow :=
  { id := 2
    exercise_name := "Squat"
    exercise_type := "strength"
    muscle := "quadriceps"
    equipment := "barbell"
    difficulty := "intermediate"
    instructions := "Bend the knees, keep the back straight."
    is_favorited := 1
    last_updated := none
    created_timestamp := 11 }

/-- An update payload that only renames. -/
def renamePayload : UpdatePayload :=
  { exercise_name := some "Bench Press"
    exercise_type := none
    muscle := none
    equipment := none
    difficulty := none
    instructions := none
    is_favorited := none }

/-- C10: the update operation performs no duplicate-name check — its only
error is the no-valid-fields one — so renaming Squat (id 2) to Bench Press
succeeds with a 200 response and leaves the store with two records bearing
the same name. -/
theorem update_no_duplicate_name_check :
    (∀ now id u db,
      updateExercise now id u db = Except.error "No valid fields to update" ∨
        ∃ db2 changes,
          updateExercise now id u db = Except.ok (db2, changes)) ∧
    benchRow.exercise_name ≠ squatRow.exercise_name ∧
    updateExercise 11 2 renamePayload [benchRow, squatRow] =
      Except.ok ([benchRow, applyUpdate 11 renamePayload squatRow], 1) ∧
    (putExercise 11 2 renamePayload [benchRow, squatRow]).1 =
      PutResponse.ok (transformRow (applyUpdate 11 renamePayload squatRow)) ∧
    ((putExercise 11 2 renamePayload [benchRow, squatRow]).2.map
      ExerciseRow.exercise_name) = ["Bench Press", "Bench Press"] := by
  refine ⟨?_, by decide, by rfl, by rfl, by rfl⟩
  intro now id u db
  unfold updateExercise
  by_cases h : hasUpdateField u = true
  · rw [if_pos h]
    exact Or.inr ⟨_, _, rfl⟩
  · rw [if_neg h]
    exact Or.inl rfl

/-! ## Unfolding the collapse step run by run -/

theorem collapseWs_cons_of_ws (c : Nat) (rest : JStr) (hc : isWs c = true) :
    collapseWs (c :: rest) = 32 :: collapseWs (rest.dropWhile isWs) := by
  induction rest generalizing c with
  | nil => simp [collapseWs, hc]
  | cons d rest ih =>
    by_cases hd : isWs d = true
    · rw [show collapseWs (c :: d :: rest) = collapseWs (d :: rest) from by
        simp [collapseWs, hc, hd]]
      rw [ih d hd, List.dropWhile_cons, if_pos hd]
    · rw [show collapseWs (c :: d :: rest) = 32 :: collapseWs (d :: rest) from by
        simp [collapseWs, hc, hd]]
      rw [List.dropWhile_cons, if_neg (by simp [hd])]

theorem collapseWs_cons_of_not_ws (c : Nat) (rest : JStr)
    (hc : isWs c = false) : collapseWs (c :: rest) = c :: collapseWs rest := by
  cases rest with
  | nil => simp [collapseWs, hc]
  | cons d rest => simp [collapseWs, hc]

/-- The collapse step as the specification words it: every maximal run of
whitespace is collapsed to exactly one space.  The flag records whether the
scan is inside a whitespace run: the run's first character emits the single
space, the rest of the run emits nothing. -/
def specCollapseAux : Bool → JStr → JStr
  | _, [] => []
  | insideRun, c :: rest =>
    if isWs c then
      (if insideRun then [] else [32]) ++ specCollapseAux true rest
    else c :: specCollapseAux false rest

/-- Entry point of the spec-side collapse: the scan starts outside a run. -/
def specCollapseRuns (s : JStr) : JStr := specCollapseAux false s

theorem specCollapseAux_eq_collapseWs (s : JStr) :
    specCollapseAux true s = collapseWs (s.dropWhile isWs) ∧
      specCollapseAux false s = collapseWs s := by
  induction s with
  | nil => exact ⟨rfl, rfl⟩
  | cons c rest ih =>
    by_cases hc : isWs c = true
    · constructor
      · rw [specCollapseAux, if_pos hc, List.dropWhile_cons, if_pos hc]
        simpa using ih.1
      · rw [specCollapseAux, if_pos hc, collapseWs_cons_of_ws c rest hc]
        simpa using ih.1
    · have hc2 : isWs c = false := by simpa using hc
      constructor
      · rw [specCollapseAux, if_neg hc, List.dropWhile_cons, if_neg hc,
          collapseWs_cons_of_not_ws c rest hc2, ih.2]
      · rw [specCollapseAux, if_neg hc,
          collapseWs_cons_of_not_ws c rest hc2, ih.2]

theorem collapseWs_eq_specCollapseRuns (s : JStr) :
    collapseWs s = specCollapseRuns s :=
  (specCollapseAux_eq_collapseWs s).2.symm

/-- The normalizer as the specification words it (4.1): lower-case all
letters, replace every hyphen and underscore with a single space, collapse
every maximal whitespace run to exactly one space, trim, in that order. -/
def specNormalize (s : JStr) : JStr :=
  trimWs (specCollapseRuns ((s.map lowerCode).map sepToSpace))

/-- C2: the normalizer is exactly the spec's four-step pipeline applied in
order; it is a total function, the empty string maps to the empty string, and
`leg-_press` normalizes to `leg press` with one single space. -/
theorem normalizer_matches_spec (s : JStr) :
    normalizeName s = specNormalize s ∧
    normalizeName [] = [] ∧
    normalizeName (strCodes "leg-_press") = strCodes "leg press" := by
  refine ⟨?_, by decide, by decide⟩
  unfold normalizeName specNormalize
  rw [collapseWs_eq_specCollapseRuns]

/-! ## Character-level facts -/

theorem lowerCode_eq_self (c : Nat) (h : ¬(65 ≤ c ∧ c ≤ 90)) :
    lowerCode c = c := by
  unfold lowerCode
  exact if_neg h

theorem lowerCode_not_upper (c : Nat) :
    ¬(65 ≤ lowerCode c ∧ lowerCode c ≤ 90) := by
  unfold lowerCode
  split
  · omega
  · omega

theorem sepToSpace_eq_self (c : Nat) (h : ¬(c = 45 ∨ c = 95)) :
    sepToSpace c = c := by
  unfold sepToSpace
  exact if_neg h

theorem sepToSpace_not_upper (c : Nat) (h : ¬(65 ≤ c ∧ c ≤ 90)) :
    ¬(65 ≤ sepToSpace c ∧ sepToSpace c ≤ 90) := by
  unfold sepToSpace
  split
  · omega
  · exact h

theorem sepToSpace_idem (c : Nat) :
    sepToSpace (sepToSpace c) = sepToSpace c := by
  by_cases h : c = 45 ∨ c = 95
  · have h1 : sepToSpace c = 32 := by
      unfold sepToSpace
      exact if_pos h
    rw [h1]
    decide
  · have h1 : sepToSpace c = c := sepToSpace_eq_self c h
    rw [h1, h1]

theorem map_id_of_mem {α : Type} (f : α → α) (s : List α)
    (h : ∀ c ∈ s, f c = c) : s.map f = s := by
  induction s with
  | nil => rfl
  | cons c rest ih =>
    rw [List.map_cons, h c (List.mem_cons_self c rest),
      ih fun d hd => h d (List.mem_cons_of_mem c hd)]

/-! ## What collapse and trim output looks like -/

theorem mem_dropWhile_of_not_ws (s : JStr) (c : Nat) (hc : c ∈ s)
    (hws : isWs c = false) : c ∈ s.dropWhile isWs := by
  induction s with
  | nil => cases hc
  | cons d rest ih =>
    rw [List.dropWhile_cons]
    by_cases hd : isWs d = true
    · rw [if_pos hd]
      rcases List.mem_cons.mp hc with rfl | hc2
      · rw [hd] at hws
        cases hws
      · exact ih hc2
    · rw [if_neg hd]
      exact hc

theorem head_dropWhile_not_ws (s : JStr) (c : Nat)
    (h : (s.dropWhile isWs).head? = some c) : isWs c = false := by
  induction s with
  | nil => cases h
  | cons d rest ih =>
    rw [List.dropWhile_cons] at h
    by_cases hd : isWs d = true
    · rw [if_pos hd] at h
      exact ih h
    · rw [if_neg hd] at h
      rw [List.head?_cons, Option.some_inj] at h
      subst h
      simpa using hd

theorem mem_collapseWs (s : JStr) (x : Nat) :
    x ∈ collapseWs s → x = 32 ∨ (x ∈ s ∧ isWs x = false) := by
  induction s using collapseWs.induct with
  | case1 =>
    intro hx
    cases hx
  | case2 c hc =>
    intro hx
    rw [show collapseWs [c] = [32] from by simp [collapseWs, hc]] at hx
    rcases List.mem_singleton.mp hx with rfl
    exact Or.inl rfl
  | case3 c hc =>
    intro hx
    rw [show collapseWs [c] = [c] from by simp [collapseWs, hc]] at hx
    rcases List.mem_singleton.mp hx with rfl
    exact Or.inr ⟨List.mem_singleton_self _, by simpa using hc⟩
  | case4 c d rest hcd ih =>
    intro hx
    rw [show collapseWs (c :: d :: rest) = collapseWs (d :: rest) from by
      simp [collapseWs, hcd]] at hx
    rcases ih hx with h32 | ⟨hm, hw⟩
    · exact Or.inl h32
    · exact Or.inr ⟨List.mem_cons_of_mem c hm, hw⟩
  | case5 c d rest hcd ih =>
    intro hx
    rw [show collapseWs (c :: d :: rest) =
        (if isWs c then 32 else c) :: collapseWs (d :: rest) from by
      simp [collapseWs, hcd]] at hx
    rcases List.mem_cons.mp hx with heq | hx2
    · by_cases hc : isWs c = true
      · rw [if_pos hc] at heq
        exact Or.inl heq
      · rw [if_neg hc] at heq
        subst heq
        exact Or.inr ⟨List.mem_cons_self _ _, by simpa using hc⟩
    · rcases ih hx2 with h32 | ⟨hm, hw⟩
      · exact Or.inl h32
      · exact Or.inr ⟨List.mem_cons_of_mem c hm, hw⟩

theorem head?_collapseWs (c : Nat) (rest : JStr) :
    (collapseWs (c :: rest)).head? = some (if isWs c then 32 else c) := by
  by_cases hc : isWs c = true
  · rw [collapseWs_cons_of_ws c rest hc, if_pos hc, List.head?_cons]
  · have hc2 : isWs c = false := by simpa using hc
    rw [collapseWs_cons_of_not_ws c rest hc2, if_neg hc, List.head?_cons]

theorem chain'_collapseWs (s : JStr) :
    List.Chain' (fun a b => isWs a = false ∨ isWs b = false)
      (collapseWs s) := by
  induction s using collapseWs.induct with
  | case1 => exact List.chain'_nil
  | case2 c hc =>
    rw [show collapseWs [c] = [32] from by simp [collapseWs, hc]]
    exact List.chain'_singleton 32
  | case3 c hc =>
    rw [show collapseWs [c] = [c] from by simp [collapseWs, hc]]
    exact List.chain'_singleton c
  | case4 c d rest hcd ih =>
    rw [show collapseWs (c :: d :: rest) = collapseWs (d :: rest) from by
      simp [collapseWs, hcd]]
    exact ih
  | case5 c d rest hcd ih =>
    rw [show collapseWs (c :: d :: rest) =
        (if isWs c then 32 else c) :: collapseWs (d :: rest) from by
      simp [collapseWs, hcd]]
    refine List.chain'_cons'.mpr ⟨?_, ih⟩
    intro y hy
    rw [head?_collapseWs d rest] at hy
    simp only [Option.mem_def, Option.some_inj] at hy
    subst hy
    by_cases hc : isWs c = true
    · have hd : isWs d = false := by
        have h2 := hcd
        simp [hc] at h2
        simpa using h2

      right
      rw [if_neg (by simp [hd])]
      exact hd
    · left
      rw [if_neg hc]
      simpa using hc

theorem collapseWs_eq_self (s : JStr)
    (hws : ∀ c ∈ s, isWs c = true → c = 32)
    (hch : List.Chain' (fun a b => isWs a = false ∨ isWs b = false) s) :
    collapseWs s = s := by
  induction s with
  | nil => rfl
  | cons c rest ih =>
    by_cases hc : isWs c = true
    · have hc32 : c = 32 := hws c (List.mem_cons_self c rest) hc
      rw [collapseWs_cons_of_ws c rest hc]
      have hdrop : rest.dropWhile isWs = rest := by
        cases rest with
        | nil => rfl
        | cons d rest2 =>
          have hd : isWs d = false := by
            rcases (List.chain'_cons.mp hch).1 with h | h
            · rw [hc] at h
              cases h
            · exact h
          rw [List.dropWhile_cons, if_neg (by simp [hd])]
      rw [hdrop,
        ih (fun x hx hwsx => hws x (List.mem_cons_of_mem c hx) hwsx) hch.tail,
        hc32]
    · have hc2 : isWs c = false := by simpa using hc
      rw [collapseWs_cons_of_not_ws c rest hc2,
        ih (fun x hx hwsx => hws x (List.mem_cons_of_mem c hx) hwsx) hch.tail]

theorem dropWhile_eq_self_of_head (s : JStr)
    (h : ∀ c, s.head? = some c → isWs c = false) :
    s.dropWhile isWs = s := by
  cases s with
  | nil => rfl
  | cons c rest =>
    rw [List.dropWhile_cons, if_neg (by simp [h c rfl])]

theorem trimWs_eq_self (s : JStr)
    (hh : ∀ c, s.head? = some c → isWs c = false)
    (hl : ∀ c, s.getLast? = some c → isWs c = false) :
    trimWs s = s := by
  unfold trimWs
  rw [dropWhile_eq_self_of_head s hh,
    dropWhile_eq_self_of_head s.reverse
      (fun c hc => hl c (by rwa [List.head?_reverse] at hc)),
    List.reverse_reverse]

theorem trimWs_getLast (s : JStr) (c : Nat)
    (h : (trimWs s).getLast? = some c) : isWs c = false := by
  unfold trimWs at h
  rw [List.getLast?_reverse] at h
  exact head_dropWhile_not_ws _ c h

theorem trimWs_head (s : JStr) (c : Nat)
    (h : (trimWs s).head? = some c) : isWs c = false := by
  unfold trimWs at h
  rw [List.head?_reverse] at h
  obtain ⟨pre, hpre⟩ :=
    List.dropWhile_suffix (l := (s.dropWhile isWs).reverse) isWs
  have h2 : ((s.dropWhile isWs).reverse).getLast? = some c := by
    rw [← hpre, List.getLast?_append, h]
    rfl
  rw [List.getLast?_reverse] at h2
  exact head_dropWhile_not_ws s c h2

theorem mem_trimWs (s : JStr) (x : Nat) (hx : x ∈ trimWs s) : x ∈ s := by
  unfold trimWs at hx
  rw [List.mem_reverse] at hx
  have h1 := (List.dropWhile_suffix isWs).subset hx
  rw [List.mem_reverse] at h1
  exact (List.dropWhile_suffix isWs).subset h1

theorem chain'_trimWs (s : JStr)
    (h : List.Chain' (fun a b => isWs a = false ∨ isWs b = false) s) :
    List.Chain' (fun a b => isWs a = false ∨ isWs b = false) (trimWs s) := by
  unfold trimWs
  have h1 := h.suffix (List.dropWhile_suffix isWs)
  have h2 : List.Chain' (fun a b => isWs a = false ∨ isWs b = false)
      (s.dropWhile isWs).reverse :=
    List.chain'_reverse.mpr (h1.imp fun _ _ hab => hab.symm)
  have h3 := h2.suffix (List.dropWhile_suffix isWs)
  exact List.chain'_reverse.mpr (h3.imp fun _ _ hab => hab.symm)

theorem normalize_chars_fixed (s : JStr) (x : Nat)
    (hx : x ∈ (s.map lowerCode).map sepToSpace) :
    lowerCode x = x ∧ sepToSpace x = x := by
  rcases List.mem_map.mp hx with ⟨b, hb, rfl⟩
  rcases List.mem_map.mp hb with ⟨a, _, rfl⟩
  exact ⟨lowerCode_eq_self _ (sepToSpace_not_upper _ (lowerCode_not_upper a)),
    sepToSpace_idem _⟩

/-- C4: normalization is idempotent — normalizing an already-normalized
string returns it unchanged, for every input string. -/
theorem normalize_idempotent (s : JStr) :
    normalizeName (normalizeName s) = normalizeName s := by
  have hmem : ∀ x ∈ normalizeName s,
      x = 32 ∨ (x ∈ (s.map lowerCode).map sepToSpace ∧ isWs x = false) :=
    fun x hx => mem_collapseWs _ x (mem_trimWs _ x hx)
  have hlower : ∀ x ∈ normalizeName s, lowerCode x = x := by
    intro x hx
    rcases hmem x hx with rfl | ⟨hx0, _⟩
    · decide
    · exact (normalize_chars_fixed s x hx0).1
  have hsep : ∀ x ∈ normalizeName s, sepToSpace x = x := by
    intro x hx
    rcases hmem x hx with rfl | ⟨hx0, _⟩
    · decide
    · exact (normalize_chars_fixed s x hx0).2
  have hws32 : ∀ x ∈ normalizeName s, isWs x = true → x = 32 := by
    intro x hx hwsx
    rcases hmem x hx with rfl | ⟨_, hfalse⟩
    · rfl
    · rw [hfalse] at hwsx
      cases hwsx
  have hchain :=
    chain'_trimWs _ (chain'_collapseWs ((s.map lowerCode).map sepToSpace))
  show trimWs (collapseWs (((normalizeName s).map lowerCode).map sepToSpace)) =
    normalizeName s
  have hh : ∀ c, (normalizeName s).head? = some c → isWs c = false :=
    fun c hc => trimWs_head _ c hc
  have hl : ∀ c, (normalizeName s).getLast? = some c → isWs c = false :=
    fun c hc => trimWs_getLast _ c hc
  rw [map_id_of_mem lowerCode _ hlower, map_id_of_mem sepToSpace _ hsep,
    collapseWs_eq_self _ hws32 hchain,
    trimWs_eq_self (normalizeName s) hh hl]

/-! ## Queries that normalize to the empty string -/

theorem includesCodes_nil_pat (hay : JStr) : includesCodes hay [] = true := by
  cases hay with
  | nil => rfl
  | cons c rest => simp [includesCodes, startsWithCodes]

theorem isWs_pipeline_char (c : Nat) :
    isWs (sepToSpace (lowerCode c)) = true ↔
      (isWs c = true ∨ c = 45 ∨ c = 95) := by
  by_cases h : 65 ≤ c ∧ c ≤ 90
  · have h1 : lowerCode c = c + 32 := by
      unfold lowerCode
      exact if_pos h
    have h2 : sepToSpace (c + 32) = c + 32 := by
      unfold sepToSpace
      exact if_neg (by omega)
    rw [h1, h2]
    simp only [isWs, Bool.or_eq_true, beq_iff_eq, decide_eq_true_eq]
    omega
  · have h1 : lowerCode c = c := lowerCode_eq_self c h
    rw [h1]
    by_cases h2 : c = 45 ∨ c = 95
    · have h3 : sepToSpace c = 32 := by
        unfold sepToSpace
        exact if_pos h2
      rw [h3]
      constructor
      · intro _
        exact Or.inr h2
      · intro _
        decide
    · rw [sepToSpace_eq_self c h2]
      constructor
      · intro hw
        exact Or.inl hw
      · rintro (hw | h4 | h9)
        · exact hw
        · exact absurd (Or.inl h4) h2
        · exact absurd (Or.inr h9) h2

theorem mem_collapseWs_of_not_ws (s : JStr) (x : Nat) :
    x ∈ s → isWs x = false → x ∈ collapseWs s := by
  induction s using collapseWs.induct with
  | case1 =>
    intro h _
    cases h
  | case2 c hc =>
    intro h hws
    rcases List.mem_singleton.mp h with rfl
    rw [hc] at hws
    cases hws
  | case3 c hc =>
    intro h hws
    rcases List.mem_singleton.mp h with rfl
    rw [show collapseWs [x] = [x] from by simp [collapseWs, hc]]
    exact List.mem_singleton_self x
  | case4 c d rest hcd ih =>
    intro h hws
    rw [show collapseWs (c :: d :: rest) = collapseWs (d :: rest) from by
      simp [collapseWs, hcd]]
    rcases List.mem_cons.mp h with rfl | h2
    · have hxw : isWs x = true := by
        have h3 := hcd
        simp only [Bool.and_eq_true] at h3
        exact h3.1
      rw [hxw] at hws
      cases hws
    · exact ih h2 hws
  | case5 c d rest hcd ih =>
    intro h hws
    rw [show collapseWs (c :: d :: rest) =
        (if isWs c then 32 else c) :: collapseWs (d :: rest) from by
      simp [collapseWs, hcd]]
    rcases List.mem_cons.mp h with rfl | h2
    · rw [if_neg (by simp [hws])]
      exact List.mem_cons_self _ _
    · exact List.mem_cons_of_mem _ (ih h2 hws)

theorem mem_trimWs_of_not_ws (s : JStr) (x : Nat) (hx : x ∈ s)
    (hws : isWs x = false) : x ∈ trimWs s := by
  unfold trimWs
  rw [List.mem_reverse]
  apply mem_dropWhile_of_not_ws _ _ _ hws
  rw [List.mem_reverse]
  exact mem_dropWhile_of_not_ws _ _ hx hws

theorem collapseWs_all_ws (s : JStr) (h : ∀ c ∈ s, isWs c = true) :
    collapseWs s = [] ∨ collapseWs s = [32] := by
  cases s with
  | nil => exact Or.inl rfl
  | cons c rest =>
    right
    have hc : isWs c = true := h c (List.mem_cons_self c rest)
    rw [collapseWs_cons_of_ws c rest hc,
      List.dropWhile_eq_nil_iff.mpr fun x hx => h x (List.mem_cons_of_mem c hx)]
    rfl

theorem normalizeName_eq_nil_iff (s : JStr) :
    normalizeName s = [] ↔ ∀ c ∈ s, isWs c = true ∨ c = 45 ∨ c = 95 := by
  constructor
  · intro h c hc
    by_contra hcon
    push_neg at hcon
    obtain ⟨hws, h45, h95⟩ := hcon
    have hxmem : sepToSpace (lowerCode c) ∈ (s.map lowerCode).map sepToSpace :=
      List.mem_map.mpr ⟨lowerCode c, List.mem_map.mpr ⟨c, hc, rfl⟩, rfl⟩
    have hxws : isWs (sepToSpace (lowerCode c)) = false := by
      by_contra hxx
      rcases (isWs_pipeline_char c).mp (by simpa using hxx) with hw | h4 | h9
      · exact hws hw
      · exact h45 h4
      · exact h95 h9
    have hx2 : sepToSpace (lowerCode c) ∈ normalizeName s :=
      mem_trimWs_of_not_ws _ _ (mem_collapseWs_of_not_ws _ _ hxmem hxws) hxws
    rw [h] at hx2
    cases hx2
  · intro h
    have hall : ∀ x ∈ (s.map lowerCode).map sepToSpace, isWs x = true := by
      intro x hx
      rcases List.mem_map.mp hx with ⟨b, hb, rfl⟩
      rcases List.mem_map.mp hb with ⟨a, ha, rfl⟩
      exact (isWs_pipeline_char a).mpr (h a ha)
    rcases collapseWs_all_ws _ hall with h0 | h32
    · show trimWs (collapseWs ((s.map lowerCode).map sepToSpace)) = []
      rw [h0]
      rfl
    · show trimWs (collapseWs ((s.map lowerCode).map sepToSpace)) = []
      rw [h32]
      decide

/-- C9: a query that normalizes to the empty string — it is empty, or made of
whitespace, hyphens and underscores only — always matches the first entry of
a non-empty loaded catalog, since the empty string is contained in every
normalized entry name, and when that first entry's images are non-empty the
lookup answers found with its expanded URLs instead of signalling no match. -/
theorem empty_query_matches_first (q : JStr) (e : ImageCatalogEntry)
    (rest : List ImageCatalogEntry) (hq : normalizeName q = []) :
    findMatch q (e :: rest) = some e ∧
    (e.images ≠ [] → lookupImages q (some (e :: rest)) =
      { found := true, images := some (e.images.map expandImage) }) ∧
    (∀ s : JStr, normalizeName s = [] ↔
      ∀ c ∈ s, isWs c = true ∨ c = 45 ∨ c = 95) := by
  have hcand : isCandidate q e = true := by
    unfold isCandidate
    rw [hq, includesCodes_nil_pat]
    simp
  have hfind : findMatch q (e :: rest) = some e := by
    unfold findMatch
    exact List.find?_cons_of_pos rest hcand
  refine ⟨hfind, ?_, normalizeName_eq_nil_iff⟩
  intro himg
  simp [lookupImages, hfind, if_pos (List.length_pos.mpr himg)]

theorem empty_query_matches_first_witness :
    findMatch (strCodes " -_ ") (curlEntry :: []) = some curlEntry ∧
    (curlEntry.images ≠ [] →
      lookupImages (strCodes " -_ ") (some (curlEntry :: [])) =
        { found := true, images := some (curlEntry.images.map expandImage) }) ∧
    (∀ s : JStr, normalizeName s = [] ↔
      ∀ c ∈ s, isWs c = true ∨ c = 45 ∨ c = 95) :=
  empty_query_matches_first (strCodes " -_ ") curlEntry [] (by decide)

/-! ## The favorite toggle -/

theorem toggleRow_id (now : Nat) (r : ExerciseRow) :
    (toggleRow now r).id = r.id := rfl

theorem getExerciseById_toggleFavorite (now id : Nat)
    (db : List ExerciseRow) :
    getExerciseById id (toggleFavorite now id db).1 =
      (getExerciseById id db).map (toggleRow now) := by
  induction db with
  | nil => rfl
  | cons r rest ih =>
    show getExerciseById id
        ((if r.id = id then toggleRow now r else r) ::
          (toggleFavorite now id rest).1) = _
    by_cases h : r.id = id
    · rw [if_pos h]
      unfold getExerciseById
      rw [List.find?_cons_of_pos _ (by simp [toggleRow_id, h]),
        List.find?_cons_of_pos _ (by simp [h])]
      rfl
    · rw [if_neg h]
      unfold getExerciseById at ih ⊢
      rw [List.find?_cons_of_neg _ (by simp [h]),
        List.find?_cons_of_neg _ (by simp [h])]
      exact ih

theorem toggleRow_is_favorited (now : Nat) (r : ExerciseRow) :
    ((toggleRow now r).is_favorited == 1) = !(r.is_favorited == 1) := by
  by_cases h : r.is_favorited = 1
  · simp [toggleRow, h]
  · simp [toggleRow, h]

theorem toggleRow_twice_is_favorited (now1 now2 : Nat) (r : ExerciseRow) :
    ((toggleRow now2 (toggleRow now1 r)).is_favorited == 1) =
      (r.is_favorited == 1) := by
  by_cases h : r.is_favorited = 1
  · simp [toggleRow, h]
  · simp [toggleRow, h]

/-- C5: toggling an existing record inverts its boolean favorite state (the
stored integer compared against 1) and stamps the modification timestamp, and
two sequential toggles return the favorite state to its original value. -/
theorem toggle_inverts_and_toggles_back (now1 now2 id : Nat)
    (db : List ExerciseRow) (r : ExerciseRow)
    (h : getExerciseById id db = some r) :
    getExerciseById id (toggleFavorite now1 id db).1 =
      some (toggleRow now1 r) ∧
    ((toggleRow now1 r).is_favorited == 1) = !(r.is_favorited == 1) ∧
    (toggleRow now1 r).last_updated = some now1 ∧
    getExerciseById id
        (toggleFavorite now2 id (toggleFavorite now1 id db).1).1 =
      some (toggleRow now2 (toggleRow now1 r)) ∧
    ((toggleRow now2 (toggleRow now1 r)).is_favorited == 1) =
      (r.is_favorited == 1) := by
  refine ⟨?_, toggleRow_is_favorited now1 r, rfl, ?_,
    toggleRow_twice_is_favorited now1 now2 r⟩
  · rw [getExerciseById_toggleFavorite, h]
    rfl
  · rw [getExerciseById_toggleFavorite, getExerciseById_toggleFavorite, h]
    rfl

theorem toggle_inverts_witness :
    getExerciseById 1 (toggleFavorite 3 1 [benchRow]).1 =
      some (toggleRow 3 benchRow) ∧
    ((toggleRow 3 benchRow).is_favorited == 1) =
      !(benchRow.is_favorited == 1) ∧
    (toggleRow 3 benchRow).last_updated = some 3 ∧
    getExerciseById 1
        (toggleFavorite 4 1 (toggleFavorite 3 1 [benchRow]).1).1 =
      some (toggleRow 4 (toggleRow 3 benchRow)) ∧
    ((toggleRow 4 (toggleRow 3 benchRow)).is_favorited == 1) =
      (benchRow.is_favorited == 1) :=
  toggle_inverts_and_toggles_back 3 4 1 [benchRow] benchRow (by rfl)

/-- C6: toggling an id with no record answers 404 with an error body and
leaves every row of the store untouched (sqlite reports zero changes). -/
theorem toggle_missing_id (now id : Nat) (db : List ExerciseRow)
    (h : getExerciseById id db = none) :
    toggleFavorite now id db = (db, 0) ∧
    patchFavorite now id db =
      (ApiResponse.notFound "Exercise not found", db) ∧
    statusOf (patchFavorite now id db).1 = 404 := by
  have hall : ∀ r ∈ db, (r.id == id) = false := by
    intro r hr
    have h2 := List.find?_eq_none.mp h r hr
    simpa using h2
  have htog : toggleFavorite now id db = (db, 0) := by
    unfold toggleFavorite
    rw [map_id_of_mem _ db fun r hr => if_neg (by simpa using hall r hr),
      List.filter_eq_nil_iff.mpr fun r hr => by simp [hall r hr]]
    rfl
  refine ⟨htog, ?_, ?_⟩
  · simp [patchFavorite, htog]
  · simp [patchFavorite, htog, statusOf]

theorem toggle_missing_id_witness :
    toggleFavorite 5 99 [benchRow] = ([benchRow], 0) ∧
    patchFavorite 5 99 [benchRow] =
      (ApiResponse.notFound "Exercise not found", [benchRow]) ∧
    statusOf (patchFavorite 5 99 [benchRow]).1 = 404 :=
  toggle_missing_id 5 99 [benchRow] (by rfl)

/-- C8: a toggle rewrites only the rows carrying the toggled id, and on such
a row it changes only `is_favorited` and `last_updated`: the id, name, type,
muscle, equipment, difficulty, instructions and creation timestamp survive,
and every row with a different id is returned unchanged. -/
theorem toggle_frame (now id : Nat) (db : List ExerciseRow) :
    (toggleFavorite now id db).1.length = db.length ∧
    List.Forall₂ (fun r r2 =>
      (r.id ≠ id → r2 = r) ∧
      (r.id = id → r2.id = r.id ∧ r2.exercise_name = r.exercise_name ∧
        r2.exercise_type = r.exercise_type ∧ r2.muscle = r.muscle ∧
        r2.equipment = r.equipment ∧ r2.difficulty = r.difficulty ∧
        r2.instructions = r.instructions ∧
        r2.created_timestamp = r.created_timestamp))
      db (toggleFavorite now id db).1 := by
  constructor
  · exact List.length_map db _
  · show List.Forall₂ _ db
      (db.map fun r => if r.id = id then toggleRow now r else r)
    induction db with
    | nil => exact List.Forall₂.nil
    | cons r rest ih =>
      rw [List.map_cons]
      refine List.Forall₂.cons ⟨?_, ?_⟩ ih
      · intro hne
        rw [if_neg hne]
      · intro heq
        rw [if_pos heq]
        exact ⟨rfl, rfl, rfl, rfl, rfl, rfl, rfl, rfl⟩

end PTExercise
